import Mathlib

/-!
Verification of the text-vectorization and similarity-ranking core of a
small semantic-search web application (`app.py`).

The embedding models text as `List Char`.  The vectorizer pipeline
(`normalize_text`, `char_bigrams`, `hash_to_index`, `text_to_vector`) and the
ranker (the `/api/search` path of `AppHandler.do_GET`, modelled as `search`
with the module-level corpus and `TOP_K` made into parameters) are translated
from the source.  Floating-point arithmetic is idealized as real arithmetic.
The MD5 digest used by `hash_to_index` is implemented from RFC 1321 over byte
lists; `lower()` is modelled for the ASCII range (the lowercase map is
length-preserving, which is all the verified properties depend on).
-/

namespace App

/-- Fixed vector dimension, `VECTOR_SIZE = 128` in the source. -/
def VECTOR_SIZE : Nat := 128

/-- Number of results returned by the search endpoint, `TOP_K = 10`. -/
def TOP_K : Nat := 10

/-- Python whitespace, the character class used by `str.split()` and
`str.strip()` (ASCII whitespace, the C1 separators, and the Unicode
space separators). -/
def pyIsSpace (c : Char) : Bool :=
  let n := c.toNat
  (9 ≤ n && n ≤ 13) || (28 ≤ n && n ≤ 31) || n == 32 || n == 0x85 || n == 0xA0 ||
    n == 0x1680 || (0x2000 ≤ n && n ≤ 0x200A) || n == 0x2028 || n == 0x2029 ||
    n == 0x202F || n == 0x205F || n == 0x3000

/-- The lowercase map applied by `.lower()`, modelled on the ASCII range. -/
def pyLower (c : Char) : Char :=
  if 'A' ≤ c && c ≤ 'Z' then Char.ofNat (c.toNat + 32) else c

/-- Embeds `_normalize_text`: `"".join((text or "").lower().split())` — lowercase,
then delete every whitespace character. -/
def normalize_text (text : List Char) : List Char :=
  (text.map pyLower).filter (fun c => !pyIsSpace c)

/-- Embeds `_char_bigrams`: if `len(text) < 2` return `[text]`, else all slices
`text[i : i + 2]` for `i in range(len(text) - 1)`. -/
def char_bigrams (text : List Char) : List (List Char) :=
  if text.length < 2 then [text]
  else (List.range (text.length - 1)).map (fun i => (text.drop i).take 2)

/-- Embeds `str.strip()`: remove leading and trailing whitespace. -/
def pyStrip (s : List Char) : List Char :=
  ((s.dropWhile pyIsSpace).reverse.dropWhile pyIsSpace).reverse

/-- UTF-8 encoding of one character (`token.encode("utf-8")`, per code point). -/
def utf8Bytes (c : Char) : List Nat :=
  let n := c.toNat
  if n < 0x80 then [n]
  else if n < 0x800 then
    [0xC0 ||| (n >>> 6), 0x80 ||| (n &&& 0x3F)]
  else if n < 0x10000 then
    [0xE0 ||| (n >>> 12), 0x80 ||| ((n >>> 6) &&& 0x3F), 0x80 ||| (n &&& 0x3F)]
  else
    [0xF0 ||| (n >>> 18), 0x80 ||| ((n >>> 12) &&& 0x3F),
      0x80 ||| ((n >>> 6) &&& 0x3F), 0x80 ||| (n &&& 0x3F)]

/-- UTF-8 encoding of a string as a byte list. -/
def encodeUtf8 (s : List Char) : List Nat :=
  s.foldr (fun c acc => utf8Bytes c ++ acc) []

/-- The constant `2 ^ 32`, the modulus of MD5's 32-bit arithmetic. -/
def M32 : Nat := 4294967296

/-- Bitwise complement on 32-bit words. -/
def not32 (x : Nat) : Nat := x ^^^ (M32 - 1)

/-- Left rotation on 32-bit words. -/
def rotl32 (x s : Nat) : Nat := ((x <<< s) ||| (x >>> (32 - s))) % M32

/-- Little-endian value of a byte list (`int.from_bytes(·, "little")`). -/
def leWord (bs : List Nat) : Nat :=
  bs.foldr (fun b acc => b + 256 * acc) 0

/-- Little-endian byte list of a number, `len` bytes. -/
def toBytesLE (n len : Nat) : List Nat :=
  (List.range len).map (fun i => (n >>> (8 * i)) % 256)

/-- MD5 sine-derived round constants (RFC 1321, `T[i] = ⌊2³² · |sin(i+1)|⌋`). -/
def md5K : List Nat :=
  [0xd76aa478, 0xe8c7b756, 0x242070db, 0xc1bdceee,
   0xf57c0faf, 0x4787c62a, 0xa8304613, 0xfd469501,
   0x698098d8, 0x8b44f7af, 0xffff5bb1, 0x895cd7be,
   0x6b901122, 0xfd987193, 0xa679438e, 0x49b40821,
   0xf61e2562, 0xc040b340, 0x265e5a51, 0xe9b6c7aa,
   0xd62f105d, 0x02441453, 0xd8a1e681, 0xe7d3fbc8,
   0x21e1cde6, 0xc33707d6, 0xf4d50d87, 0x455a14ed,
   0xa9e3e905, 0xfcefa3f8, 0x676f02d9, 0x8d2a4c8a,
   0xfffa3942, 0x8771f681, 0x6d9d6122, 0xfde5380c,
   0xa4beea44, 0x4bdecfa9, 0xf6bb4b60, 0xbebfbc70,
   0x289b7ec6, 0xeaa127fa, 0xd4ef3085, 0x04881d05,
   0xd9d4d039, 0xe6db99e5, 0x1fa27cf8, 0xc4ac5665,
   0xf4292244, 0x432aff97, 0xab9423a7, 0xfc93a039,
   0x655b59c3, 0x8f0ccc92, 0xffeff47d, 0x85845dd1,
   0x6fa87e4f, 0xfe2ce6e0, 0xa3014314, 0x4e0811a1,
   0xf7537e82, 0xbd3af235, 0x2ad7d2bb, 0xeb86d391]

/-- MD5 per-round left-rotation amounts. -/
def md5S : List Nat :=
  [7, 12, 17, 22, 7, 12, 17, 22, 7, 12, 17, 22, 7, 12, 17, 22,
   5, 9, 14, 20, 5, 9, 14, 20, 5, 9, 14, 20, 5, 9, 14, 20,
   4, 11, 16, 23, 4, 11, 16, 23, 4, 11, 16, 23, 4, 11, 16, 23,
   6, 10, 15, 21, 6, 10, 15, 21, 6, 10, 15, 21, 6, 10, 15, 21]

/-- One MD5 operation: round function, message-word schedule, add, rotate. -/
def md5Round (m : List Nat) (st : Nat × Nat × Nat × Nat) (i : Nat) :
    Nat × Nat × Nat × Nat :=
  let a := st.1
  let b := st.2.1
  let c := st.2.2.1
  let d := st.2.2.2
  let f :=
    if i < 16 then (b &&& c) ||| (not32 b &&& d)
    else if i < 32 then (d &&& b) ||| (not32 d &&& c)
    else if i < 48 then b ^^^ c ^^^ d
    else c ^^^ (b ||| not32 d)
  let g :=
    if i < 16 then i
    else if i < 32 then (5 * i + 1) % 16
    else if i < 48 then (3 * i + 5) % 16
    else (7 * i) % 16
  let f2 := (f + a + md5K.getD i 0 + m.getD g 0) % M32
  (d, (b + rotl32 f2 (md5S.getD i 0)) % M32, b, c)

/-- Process one 64-byte MD5 block. -/
def md5Chunk (st : Nat × Nat × Nat × Nat) (chunk : List Nat) :
    Nat × Nat × Nat × Nat :=
  let m := (List.range 16).map (fun j => leWord ((chunk.drop (4 * j)).take 4))
  let r := (List.range 64).foldl (md5Round m) st
  ((st.1 + r.1) % M32, (st.2.1 + r.2.1) % M32,
   (st.2.2.1 + r.2.2.1) % M32, (st.2.2.2 + r.2.2.2) % M32)

/-- Fold `md5Chunk` over the 64-byte blocks of a padded message. -/
def md5Chunks (st : Nat × Nat × Nat × Nat) (bs : List Nat) :
    Nat × Nat × Nat × Nat :=
  if h : bs.isEmpty then st
  else md5Chunks (md5Chunk st (bs.take 64)) (bs.drop 64)
termination_by bs.length
decreasing_by
  simp only [List.length_drop]
  have : bs ≠ [] := by simpa [List.isEmpty_iff] using h
  have : 0 < bs.length := List.length_pos.mpr this
  omega

/-- MD5 padding: `0x80`, zeros to 56 mod 64, then the bit length as 8
little-endian bytes. -/
def md5Pad (msg : List Nat) : List Nat :=
  let zeros := (120 - (msg.length + 1) % 64) % 64
  msg ++ [0x80] ++ List.replicate zeros 0 ++ toBytesLE (8 * msg.length) 8

/-- Embeds `hashlib.md5(·).digest()`: the 16-byte MD5 digest. -/
def md5Digest (msg : List Nat) : List Nat :=
  let r := md5Chunks (0x67452301, 0xefcdab89, 0x98badcfe, 0x10325476) (md5Pad msg)
  toBytesLE r.1 4 ++ toBytesLE r.2.1 4 ++ toBytesLE r.2.2.1 4 ++ toBytesLE r.2.2.2 4

/-- Embeds `_hash_to_index`: first 4 digest bytes as a little-endian unsigned
integer, reduced modulo `VECTOR_SIZE`. -/
def hash_to_index (token : List Char) : Nat :=
  let digest := md5Digest (encodeUtf8 token)
  let value := leWord (digest.take 4)
  value % VECTOR_SIZE

/-- One step of the accumulation loop `vec[_hash_to_index(token)] += 1.0`. -/
noncomputable def bump (vec : List ℝ) (token : List Char) : List ℝ :=
  vec.set (hash_to_index token) (vec.getD (hash_to_index token) 0 + 1)

/-- The accumulation loop of `text_to_vector`: start from `[0.0] * VECTOR_SIZE`
and add `1.0` at each token's bucket. -/
noncomputable def accumulate (bigrams : List (List Char)) : List ℝ :=
  bigrams.foldl bump (List.replicate VECTOR_SIZE (0 : ℝ))

/-- The value `sum(v * v for v in vec)`, the squared Euclidean norm. -/
noncomputable def sumSq (l : List ℝ) : ℝ := (l.map (fun v => v * v)).sum

open Classical in
/-- Embeds `text_to_vector`: normalize, take bigrams, accumulate hashed counts, then
divide by the Euclidean norm unless the norm is zero. -/
noncomputable def text_to_vector (text : List Char) : List ℝ :=
  let normalized := normalize_text text
  let bigrams := char_bigrams normalized
  let vec := accumulate bigrams
  let norm := Real.sqrt (sumSq vec)
  if norm = 0 then vec else vec.map (fun v => v / norm)

/-- Embeds `cosine_similarity`: `sum(a * b for a, b in zip(vec_a, vec_b))`. -/
noncomputable def cosine_similarity (vec_a vec_b : List ℝ) : ℝ :=
  ((vec_a.zip vec_b).map (fun p => p.1 * p.2)).sum

/-- A corpus entry: an identifier and the searchable text whose vector is
precomputed at startup (`PROBLEM_VECTORS`). -/
structure Entry where
  id : List Char
  text : List Char

/-- The similarity score the search handler assigns to one corpus entry. -/
noncomputable def entryScore (q : List Char) (e : Entry) : ℝ :=
  cosine_similarity (text_to_vector q) (text_to_vector e.text)

/-- The `scored` list built by the handler, in corpus order: each entry's
identifier paired with its cosine similarity to the query vector. -/
noncomputable def scoreList (q : List Char) (corpus : List Entry) :
    List (List Char × ℝ) :=
  corpus.map (fun e => (e.id, entryScore q e))

open Classical in
/-- The comparison realized by `scored.sort(key=score, reverse=True)`:
descending by score. -/
noncomputable def scoreGE (x y : List Char × ℝ) : Bool := decide (y.2 ≤ x.2)

/-- Embeds `scored.sort(...)`: `list.sort` is stable; with `reverse=True` equal-keyed elements
still keep their original order. -/
noncomputable def sortScored (l : List (List Char × ℝ)) : List (List Char × ℝ) :=
  l.mergeSort scoreGE

/-- The `/api/search` path of `AppHandler.do_GET`, with the module corpus and
`TOP_K` as parameters: strip the query, return `[]` if empty, otherwise score
every entry, sort descending and keep the first `k`. -/
noncomputable def search (q : List Char) (corpus : List Entry) (k : Nat) :
    List (List Char × ℝ) :=
  let query := pyStrip q
  if query = [] then []
  else (sortScored (scoreList query corpus)).take k

/-- Number of tokens in `bigrams` that hash to bucket `j`. -/
def countAt (bigrams : List (List Char)) (j : Nat) : Nat :=
  bigrams.countP (fun t => hash_to_index t == j)

/-! ### Machinery: the tokenizer always yields at least one token -/

lemma char_bigrams_ne_nil (t : List Char) : char_bigrams t ≠ [] := by
  unfold char_bigrams
  split
  · simp
  · next h =>
    simp only [ne_eq, List.map_eq_nil_iff, List.range_eq_nil]
    omega

lemma hash_to_index_lt (token : List Char) : hash_to_index token < VECTOR_SIZE := by
  unfold hash_to_index
  exact Nat.mod_lt _ (by decide)

/-! ### Machinery: the accumulation loop -/

lemma length_foldl_bump (bigrams : List (List Char)) (v : List ℝ) :
    (bigrams.foldl bump v).length = v.length := by
  induction bigrams generalizing v with
  | nil => rfl
  | cons t ts ih => simp [List.foldl_cons, ih, bump, List.length_set]

lemma length_accumulate (bigrams : List (List Char)) :
    (accumulate bigrams).length = VECTOR_SIZE := by
  simp [accumulate, length_foldl_bump]

lemma getD_foldl_bump (bigrams : List (List Char)) :
    ∀ v : List ℝ, v.length = VECTOR_SIZE → ∀ j, j < VECTOR_SIZE →
      (bigrams.foldl bump v).getD j 0 = v.getD j 0 + (countAt bigrams j : ℝ) := by
  induction bigrams with
  | nil => intro v _ j _; simp [countAt]
  | cons t ts ih =>
    intro v hv j hj
    have hlen : (bump v t).length = VECTOR_SIZE := by
      simp [bump, List.length_set, hv]
    have hstep := ih (bump v t) hlen j hj
    have hjv : j < v.length := hv ▸ hj
    have hbv : j < (bump v t).length := hlen ▸ hj
    have hget : (bump v t).getD j 0 =
        v.getD j 0 + if hash_to_index t = j then 1 else 0 := by
      rw [List.getD_eq_getElem _ _ hbv, List.getD_eq_getElem _ _ hjv]
      simp only [bump]
      rw [List.getElem_set]
      by_cases hcase : hash_to_index t = j
      · simp [hcase, List.getElem?_eq_getElem hjv]
      · simp [hcase]
    have hcount : (countAt (t :: ts) j : ℝ) =
        (countAt ts j : ℝ) + if hash_to_index t = j then 1 else 0 := by
      simp only [countAt, List.countP_cons]
      by_cases hcase : hash_to_index t = j <;> simp [hcase]
    rw [List.foldl_cons, hstep, hget, hcount]
    ring

lemma getD_accumulate (bigrams : List (List Char)) (j : Nat) (hj : j < VECTOR_SIZE) :
    (accumulate bigrams).getD j 0 = (countAt bigrams j : ℝ) := by
  have h := getD_foldl_bump bigrams (List.replicate VECTOR_SIZE (0 : ℝ))
    (by simp) j hj
  have hrep : (List.replicate VECTOR_SIZE (0 : ℝ)).getD j 0 = 0 := by
    rw [List.getD_eq_getElem _ _ (by simpa using hj)]
    simp
  simpa [accumulate, hrep] using h

lemma accumulate_mem_nonneg (bigrams : List (List Char)) :
    ∀ x ∈ accumulate bigrams, 0 ≤ x := by
  intro x hx
  obtain ⟨i, hi, hix⟩ := List.mem_iff_getElem.mp hx
  have hilt : i < VECTOR_SIZE := by
    have := length_accumulate bigrams
    omega
  have : (accumulate bigrams)[i] = (countAt bigrams i : ℝ) := by
    rw [← List.getD_eq_getElem _ (0 : ℝ) hi, getD_accumulate bigrams i hilt]
  rw [← hix, this]
  exact Nat.cast_nonneg _

lemma sumSq_nonneg (l : List ℝ) : 0 ≤ sumSq l := by
  apply List.sum_nonneg
  intro x hx
  obtain ⟨v, _, rfl⟩ := List.mem_map.mp hx
  exact mul_self_nonneg v

lemma one_le_sumSq_accumulate (bigrams : List (List Char)) (hne : bigrams ≠ []) :
    1 ≤ sumSq (accumulate bigrams) := by
  obtain ⟨t, ts, rfl⟩ := List.exists_cons_of_ne_nil hne
  set j := hash_to_index t with hjdef
  have hj : j < VECTOR_SIZE := hash_to_index_lt t
  have hcount : 1 ≤ countAt (t :: ts) j := by
    have : 0 < countAt (t :: ts) j := by
      apply List.countP_pos_iff.mpr
      exact ⟨t, List.mem_cons_self t ts, by simp⟩
    omega
  have hjlen : j < (accumulate (t :: ts)).length := by
    rw [length_accumulate]; exact hj
  have hval : (1 : ℝ) ≤ (accumulate (t :: ts))[j] := by
    rw [← List.getD_eq_getElem _ (0 : ℝ) hjlen, getD_accumulate _ j hj]
    exact_mod_cast hcount
  have hmem : (accumulate (t :: ts))[j] * (accumulate (t :: ts))[j] ∈
      (accumulate (t :: ts)).map (fun v => v * v) :=
    List.mem_map_of_mem _ (List.getElem_mem hjlen)
  have hle : (accumulate (t :: ts))[j] * (accumulate (t :: ts))[j] ≤
      sumSq (accumulate (t :: ts)) := by
    apply List.single_le_sum _ _ hmem
    intro x hx
    obtain ⟨v, _, rfl⟩ := List.mem_map.mp hx
    exact mul_self_nonneg v
  nlinarith

/-! ### Machinery: the normalized vector -/

/-- Shorthand for the count vector of a text. -/
noncomputable def rawVec (text : List Char) : List ℝ :=
  accumulate (char_bigrams (normalize_text text))

lemma one_le_sumSq_rawVec (text : List Char) : 1 ≤ sumSq (rawVec text) :=
  one_le_sumSq_accumulate _ (char_bigrams_ne_nil _)

lemma sqrt_sumSq_rawVec_pos (text : List Char) :
    0 < Real.sqrt (sumSq (rawVec text)) :=
  Real.sqrt_pos.mpr (lt_of_lt_of_le one_pos (one_le_sumSq_rawVec text))

lemma text_to_vector_eq (text : List Char) :
    text_to_vector text =
      (rawVec text).map (fun v => v / Real.sqrt (sumSq (rawVec text))) := by
  have hne : Real.sqrt (sumSq (accumulate (char_bigrams (normalize_text text)))) ≠ 0 :=
    ne_of_gt (sqrt_sumSq_rawVec_pos text)
  unfold text_to_vector rawVec
  simp only [if_neg hne]

lemma length_text_to_vector (text : List Char) :
    (text_to_vector text).length = VECTOR_SIZE := by
  rw [text_to_vector_eq, List.length_map]
  exact length_accumulate _

lemma sumSq_map_div (l : List ℝ) (n : ℝ) :
    sumSq (l.map (fun v => v / n)) = sumSq l / (n * n) := by
  induction l with
  | nil => simp [sumSq]
  | cons x xs ih =>
    simp only [sumSq, List.map_cons, List.sum_cons] at ih ⊢
    rw [ih]
    ring

lemma sumSq_text_to_vector (text : List Char) : sumSq (text_to_vector text) = 1 := by
  rw [text_to_vector_eq, sumSq_map_div]
  have h0 : 0 ≤ sumSq (rawVec text) := sumSq_nonneg _
  rw [Real.mul_self_sqrt h0]
  have h1 : sumSq (rawVec text) ≠ 0 := by
    have := one_le_sumSq_rawVec text; linarith
  field_simp

lemma norm_text_to_vector (text : List Char) :
    Real.sqrt (sumSq (text_to_vector text)) = 1 := by
  rw [sumSq_text_to_vector, Real.sqrt_one]

lemma text_to_vector_mem_nonneg (text : List Char) :
    ∀ x ∈ text_to_vector text, 0 ≤ x := by
  intro x hx
  rw [text_to_vector_eq] at hx
  obtain ⟨v, hv, rfl⟩ := List.mem_map.mp hx
  exact div_nonneg (accumulate_mem_nonneg _ v hv) (Real.sqrt_nonneg _)

lemma text_to_vector_exists_pos (text : List Char) :
    ∃ x ∈ text_to_vector text, 0 < x := by
  obtain ⟨t, ts, hcons⟩ :=
    List.exists_cons_of_ne_nil (char_bigrams_ne_nil (normalize_text text))
  set j := hash_to_index t with hjdef
  have hj : j < VECTOR_SIZE := hash_to_index_lt t
  have hjlen : j < (rawVec text).length := by
    rw [rawVec, length_accumulate]; exact hj
  have hcount : 1 ≤ countAt (char_bigrams (normalize_text text)) j := by
    have : 0 < countAt (char_bigrams (normalize_text text)) j := by
      apply List.countP_pos_iff.mpr
      exact ⟨t, by rw [hcons]; exact List.mem_cons_self t ts, by simp⟩
    omega
  have hval : (1 : ℝ) ≤ (rawVec text)[j] := by
    rw [← List.getD_eq_getElem _ (0 : ℝ) hjlen, rawVec, getD_accumulate _ j hj]
    exact_mod_cast hcount
  refine ⟨(rawVec text)[j] / Real.sqrt (sumSq (rawVec text)), ?_, ?_⟩
  · rw [text_to_vector_eq]
    exact List.mem_map_of_mem _ (List.getElem_mem hjlen)
  · exact div_pos (lt_of_lt_of_le one_pos hval) (sqrt_sumSq_rawVec_pos text)

lemma text_to_vector_congr {t₁ t₂ : List Char}
    (h : normalize_text t₁ = normalize_text t₂) :
    text_to_vector t₁ = text_to_vector t₂ := by
  unfold text_to_vector
  rw [h]

/-! ### Machinery: cosine similarity -/

lemma cosine_self (v : List ℝ) : cosine_similarity v v = sumSq v := by
  induction v with
  | nil => rfl
  | cons x xs ih =>
    simp only [cosine_similarity, sumSq, List.zip_cons_cons, List.map_cons,
      List.sum_cons] at ih ⊢
    rw [ih]

lemma cosine_le_half_sumSq (a : List ℝ) :
    ∀ b : List ℝ, cosine_similarity a b ≤ (sumSq a + sumSq b) / 2 := by
  induction a with
  | nil =>
    intro b
    have h : cosine_similarity [] b = 0 := by simp [cosine_similarity]
    have := sumSq_nonneg b
    have := sumSq_nonneg ([] : List ℝ)
    rw [h]; linarith
  | cons x xs ih =>
    intro b
    cases b with
    | nil =>
      have h : cosine_similarity (x :: xs) [] = 0 := by simp [cosine_similarity]
      have := sumSq_nonneg (x :: xs)
      have := sumSq_nonneg ([] : List ℝ)
      rw [h]; linarith
    | cons y ys =>
      have hx := ih ys
      simp only [cosine_similarity, sumSq, List.zip_cons_cons, List.map_cons,
        List.sum_cons] at hx ⊢
      nlinarith [sq_nonneg (x - y)]

lemma cosine_nonneg (a : List ℝ) :
    ∀ b : List ℝ, (∀ x ∈ a, 0 ≤ x) → (∀ x ∈ b, 0 ≤ x) →
      0 ≤ cosine_similarity a b := by
  induction a with
  | nil => intro b _ _; simp [cosine_similarity]
  | cons x xs ih =>
    intro b ha hb
    cases b with
    | nil => simp [cosine_similarity]
    | cons y ys =>
      have h1 : 0 ≤ x := ha x (List.mem_cons_self _ _)
      have h2 : 0 ≤ y := hb y (List.mem_cons_self _ _)
      have h3 := ih ys (fun z hz => ha z (List.mem_cons_of_mem _ hz))
        (fun z hz => hb z (List.mem_cons_of_mem _ hz))
      simp only [cosine_similarity, List.zip_cons_cons, List.map_cons,
        List.sum_cons] at h3 ⊢
      nlinarith

lemma entryScore_nonneg (q : List Char) (e : Entry) : 0 ≤ entryScore q e :=
  cosine_nonneg _ _ (text_to_vector_mem_nonneg q) (text_to_vector_mem_nonneg e.text)

lemma entryScore_le_one (q : List Char) (e : Entry) : entryScore q e ≤ 1 := by
  have h := cosine_le_half_sumSq (text_to_vector q) (text_to_vector e.text)
  rw [sumSq_text_to_vector, sumSq_text_to_vector] at h
  unfold entryScore
  linarith

/-! ### Machinery: the descending stable sort -/

lemma scoreGE_iff (x y : List Char × ℝ) : scoreGE x y = true ↔ y.2 ≤ x.2 := by
  simp [scoreGE]

lemma scoreGE_trans : ∀ a b c : List Char × ℝ,
    scoreGE a b → scoreGE b c → scoreGE a c := by
  intro a b c hab hbc
  rw [scoreGE_iff] at hab hbc ⊢
  exact le_trans hbc hab

lemma scoreGE_total : ∀ a b : List Char × ℝ, scoreGE a b || scoreGE b a := by
  intro a b
  rcases le_total a.2 b.2 with h | h
  · have : scoreGE b a = true := (scoreGE_iff b a).mpr h
    simp [this]
  · have : scoreGE a b = true := (scoreGE_iff a b).mpr h
    simp [this]

lemma sortScored_perm (l : List (List Char × ℝ)) : List.Perm (sortScored l) l :=
  List.mergeSort_perm l scoreGE

lemma length_sortScored (l : List (List Char × ℝ)) :
    (sortScored l).length = l.length :=
  (sortScored_perm l).length_eq

lemma mem_sortScored {x : List Char × ℝ} {l : List (List Char × ℝ)} :
    x ∈ sortScored l ↔ x ∈ l :=
  List.mem_mergeSort

lemma sortScored_pairwise (l : List (List Char × ℝ)) :
    (sortScored l).Pairwise (fun x y => y.2 ≤ x.2) := by
  have h := List.sorted_mergeSort scoreGE_trans scoreGE_total l
  exact h.imp (fun hxy => (scoreGE_iff _ _).mp hxy)

lemma length_scoreList (q : List Char) (corpus : List Entry) :
    (scoreList q corpus).length = corpus.length := by
  simp [scoreList]

lemma head?_take {α : Type} (l : List α) (k : Nat) (hk : 0 < k) :
    (l.take k).head? = l.head? := by
  cases l with
  | nil => simp
  | cons x xs =>
    obtain ⟨k', rfl⟩ := Nat.exists_eq_succ_of_ne_zero (Nat.pos_iff_ne_zero.mp hk)
    simp [List.take_succ_cons]

lemma search_eq_of_ne_nil (q : List Char) (corpus : List Entry) (k : Nat)
    (h : pyStrip q ≠ []) :
    search q corpus k = (sortScored (scoreList (pyStrip q) corpus)).take k := by
  unfold search
  simp only [if_neg h]

lemma sumSq_replicate_zero : sumSq (List.replicate VECTOR_SIZE (0 : ℝ)) = 0 := by
  simp [sumSq, List.map_replicate]

lemma text_to_vector_ne_zero_vec (t : List Char) :
    text_to_vector t ≠ List.replicate VECTOR_SIZE (0 : ℝ) := by
  intro h
  have h1 : sumSq (text_to_vector t) = 1 := sumSq_text_to_vector t
  rw [h, sumSq_replicate_zero] at h1
  norm_num at h1

/-! ### The claims -/

/-- C1, counterexample: the claim states that an input normalizing to the
empty string yields the all-zero vector.  The code disagrees at the input
`""`: `_char_bigrams("")` returns `[""]`, the empty token is hashed and
counted, so `text_to_vector ""` is a unit vector with one positive
component, not the zero vector of length 128. -/
theorem c1_counterexample :
    normalize_text [] = [] ∧
    text_to_vector [] ≠ List.replicate VECTOR_SIZE (0 : ℝ) :=
  ⟨rfl, text_to_vector_ne_zero_vec []⟩

/-- C1, amended: every input text that normalizes to the empty string gets
the same vector as `""` — in particular `vectorize("")` and
`vectorize("   ")` are equal — but that common vector is a unit vector
(norm 1), never the all-zero vector. -/
theorem c1_theorem : ∀ t : List Char, normalize_text t = [] →
    text_to_vector t = text_to_vector [] ∧
    Real.sqrt (sumSq (text_to_vector t)) = 1 ∧
    text_to_vector t ≠ List.replicate VECTOR_SIZE (0 : ℝ) := by
  intro t ht
  have heq : text_to_vector t = text_to_vector [] :=
    text_to_vector_congr (by rw [ht]; rfl)
  exact ⟨heq, norm_text_to_vector t, text_to_vector_ne_zero_vec t⟩

/-- C1, witness: the amended claim applied to the whitespace-only input
`"   "`, whose normalization is empty. -/
theorem c1_witness :
    text_to_vector [' ', ' ', ' '] = text_to_vector [] ∧
    Real.sqrt (sumSq (text_to_vector [' ', ' ', ' '])) = 1 ∧
    text_to_vector [' ', ' ', ' '] ≠ List.replicate VECTOR_SIZE (0 : ℝ) :=
  c1_theorem [' ', ' ', ' '] (by decide)

/-- C2: for every input text the returned vector has Euclidean norm 1 and at
least one strictly positive component — it is never all-zero — because the
tokenizer always yields at least one token. -/
theorem c2_theorem : ∀ t : List Char,
    Real.sqrt (sumSq (text_to_vector t)) = 1 ∧
    (∃ x ∈ text_to_vector t, 0 < x) ∧
    char_bigrams (normalize_text t) ≠ [] := by
  intro t
  exact ⟨norm_text_to_vector t, text_to_vector_exists_pos t, char_bigrams_ne_nil _⟩

/-- C3: for every text the vector has length exactly `VECTOR_SIZE = 128`,
and its Euclidean norm is 1 or every component is 0 (the first disjunct in
fact always holds). -/
theorem c3_theorem : ∀ t : List Char,
    (text_to_vector t).length = VECTOR_SIZE ∧
    (Real.sqrt (sumSq (text_to_vector t)) = 1 ∨ ∀ x ∈ text_to_vector t, x = 0) := by
  intro t
  exact ⟨length_text_to_vector t, Or.inl (norm_text_to_vector t)⟩

/-- C9: for a normalized string of length `L ≥ 2` the tokenizer produces
exactly `L - 1` bigrams, the `i`-th being the 2-character slice
`text[i : i + 2]`; for length `< 2` it produces the single token equal to
the whole (possibly empty) string. -/
theorem c9_theorem : ∀ t : List Char,
    (2 ≤ t.length →
      (char_bigrams t).length = t.length - 1 ∧
      (∀ i, i < t.length - 1 → (char_bigrams t).getD i [] = (t.drop i).take 2) ∧
      (∀ b ∈ char_bigrams t, b.length = 2)) ∧
    (t.length < 2 → char_bigrams t = [t]) := by
  intro t
  constructor
  · intro h2
    have hnot : ¬ t.length < 2 := by omega
    refine ⟨by simp [char_bigrams, hnot], ?_, ?_⟩
    · intro i hi
      have hlen : i < (char_bigrams t).length := by
        simp only [char_bigrams, if_neg hnot, List.length_map, List.length_range]
        exact hi
      rw [List.getD_eq_getElem _ _ hlen]
      simp [char_bigrams, hnot]
    · intro b hb
      simp only [char_bigrams, if_neg hnot, List.mem_map, List.mem_range] at hb
      obtain ⟨i, hi, rfl⟩ := hb
      rw [List.length_take, List.length_drop]
      omega
  · intro h2
    simp [char_bigrams, h2]

/-- C9, witness: `"abc"` yields two bigrams and `"a"` yields itself. -/
theorem c9_witness :
    (char_bigrams ['a', 'b', 'c']).length = 2 ∧
    char_bigrams ['a'] = [['a']] := by
  have h1 := c9_theorem ['a', 'b', 'c']
  have h2 := c9_theorem ['a']
  exact ⟨(h1.1 (by decide)).1, h2.2 (by decide)⟩

/-- C10: `_hash_to_index` always lands in `[0, VECTOR_SIZE)`, so the
accumulation write is in bounds; the count vector keeps length
`VECTOR_SIZE` throughout. -/
theorem c10_theorem :
    (∀ token : List Char, hash_to_index token < VECTOR_SIZE) ∧
    (∀ bigrams : List (List Char), (accumulate bigrams).length = VECTOR_SIZE) :=
  ⟨hash_to_index_lt, length_accumulate⟩

/-- C8: a query that strips to the empty string short-circuits to the empty
result list, for every corpus and every `k`. -/
theorem c8_theorem : ∀ (q : List Char) (corpus : List Entry) (k : Nat),
    pyStrip q = [] → search q corpus k = [] := by
  intro q corpus k h
  unfold search
  simp [h]

/-- C8, witness: a whitespace-only query against a nonempty corpus. -/
theorem c8_witness : search [' '] [⟨['p'], ['x']⟩] 10 = [] :=
  c8_theorem [' '] [⟨['p'], ['x']⟩] 10 (by decide)

/-- C4: for a query that does not strip to empty, the result list has at
most `min k corpus.length` elements, is sorted by score descending, each
result is some corpus entry's identifier paired with its score, and a
corpus shorter than `k` is returned in full. -/
theorem c4_theorem : ∀ (q : List Char) (corpus : List Entry) (k : Nat),
    pyStrip q ≠ [] →
    (search q corpus k).length ≤ min k corpus.length ∧
    (search q corpus k).Pairwise (fun x y => y.2 ≤ x.2) ∧
    (∀ r ∈ search q corpus k, ∃ e ∈ corpus, r = (e.id, entryScore (pyStrip q) e)) ∧
    (corpus.length < k → (search q corpus k).length = corpus.length) := by
  intro q corpus k h
  rw [search_eq_of_ne_nil q corpus k h]
  have hlen : (sortScored (scoreList (pyStrip q) corpus)).length = corpus.length := by
    rw [length_sortScored, length_scoreList]
  refine ⟨?_, ?_, ?_, ?_⟩
  · rw [List.length_take, hlen]
  · exact (sortScored_pairwise _).sublist (List.take_sublist _ _)
  · intro r hr
    have hr2 : r ∈ sortScored (scoreList (pyStrip q) corpus) :=
      List.mem_of_mem_take hr
    have hr3 : r ∈ scoreList (pyStrip q) corpus := mem_sortScored.mp hr2
    simp only [scoreList, List.mem_map] at hr3
    obtain ⟨e, he, heq⟩ := hr3
    exact ⟨e, he, heq.symm⟩
  · intro hlt
    rw [List.length_take, hlen]
    omega

/-- C4, witness: a one-entry corpus with `k = 10`. -/
theorem c4_witness :
    (search ['a'] [⟨['p'], ['a']⟩] 10).length ≤ min 10 1 ∧
    (search ['a'] [⟨['p'], ['a']⟩] 10).Pairwise (fun x y => y.2 ≤ x.2) ∧
    (∀ r ∈ search ['a'] [⟨['p'], ['a']⟩] 10,
      ∃ e ∈ [(⟨['p'], ['a']⟩ : Entry)], r = (e.id, entryScore (pyStrip ['a']) e)) ∧
    ((1 : Nat) < 10 → (search ['a'] [⟨['p'], ['a']⟩] 10).length = 1) :=
  c4_theorem ['a'] [⟨['p'], ['a']⟩] 10 (by decide)

open Classical in
/-- Score-equality test, used to speak about the set of tied entries. -/
noncomputable def scoreEq (s : ℝ) (x : List Char × ℝ) : Bool := decide (x.2 = s)

lemma scoreEq_iff (s : ℝ) (x : List Char × ℝ) : scoreEq s x = true ↔ x.2 = s := by
  simp [scoreEq]

/-- C5: the sort is stable, so entries with equal scores keep their corpus
order: the results are the first `k` of the sorted scored list, and for any
score value `s` the subsequence of entries scoring `s`, taken in corpus
order, is a sublist of the sorted output. -/
theorem c5_theorem : ∀ (q : List Char) (corpus : List Entry) (k : Nat) (s : ℝ),
    pyStrip q ≠ [] →
    search q corpus k = (sortScored (scoreList (pyStrip q) corpus)).take k ∧
    ((scoreList (pyStrip q) corpus).filter (scoreEq s)).Sublist
      (sortScored (scoreList (pyStrip q) corpus)) := by
  intro q corpus k s h
  refine ⟨search_eq_of_ne_nil q corpus k h, ?_⟩
  unfold sortScored
  apply List.sublist_mergeSort scoreGE_trans scoreGE_total
  · apply List.pairwise_of_forall_mem_list
    intro a ha b hb
    rw [List.mem_filter] at ha hb
    have ha2 : a.2 = s := (scoreEq_iff s a).mp ha.2
    have hb2 : b.2 = s := (scoreEq_iff s b).mp hb.2
    rw [scoreGE_iff, ha2, hb2]
  · exact List.filter_sublist _

/-- C5, witness: instantiated at a concrete nonempty query. -/
theorem c5_witness :
    search ['b'] [⟨['p'], ['b']⟩] 10 =
      (sortScored (scoreList (pyStrip ['b']) [⟨['p'], ['b']⟩])).take 10 ∧
    ((scoreList (pyStrip ['b']) [⟨['p'], ['b']⟩]).filter (scoreEq 0)).Sublist
      (sortScored (scoreList (pyStrip ['b']) [⟨['p'], ['b']⟩])) :=
  c5_theorem ['b'] [⟨['p'], ['b']⟩] 10 0 (by decide)

/-- C6: a corpus entry whose searchable text equals the (stripped) query
text scores exactly 1 and, when no other entry ties at score 1 and `k > 0`,
it is the first result. -/
theorem c6_theorem : ∀ (q : List Char) (corpus : List Entry) (k : Nat) (e : Entry),
    pyStrip q ≠ [] → 0 < k → e ∈ corpus → e.text = pyStrip q →
    (∀ e' ∈ corpus, entryScore (pyStrip q) e' = 1 → e'.id = e.id) →
    entryScore (pyStrip q) e = 1 ∧
    (search q corpus k).head? = some (e.id, 1) := by
  intro q corpus k e hq hk he htext huniq
  have hscore : entryScore (pyStrip q) e = 1 := by
    unfold entryScore
    rw [htext, cosine_self, sumSq_text_to_vector]
  refine ⟨hscore, ?_⟩
  rw [search_eq_of_ne_nil q corpus k hq, head?_take _ k hk]
  have hmem1 : ((e.id, (1 : ℝ))) ∈ scoreList (pyStrip q) corpus := by
    simp only [scoreList, List.mem_map]
    exact ⟨e, he, by rw [hscore]⟩
  have hne : sortScored (scoreList (pyStrip q) corpus) ≠ [] := by
    intro hnil
    have hmem2 := mem_sortScored.mpr hmem1
    rw [hnil] at hmem2
    exact absurd hmem2 (List.not_mem_nil _)
  obtain ⟨y, ys, hyys⟩ := List.exists_cons_of_ne_nil hne
  have hpw := sortScored_pairwise (scoreList (pyStrip q) corpus)
  rw [hyys] at hpw
  have hrest : ∀ z ∈ ys, z.2 ≤ y.2 := fun z hz => List.rel_of_pairwise_cons hpw hz
  have hymem : y ∈ scoreList (pyStrip q) corpus := by
    apply mem_sortScored.mp
    rw [hyys]
    exact List.mem_cons_self _ _
  simp only [scoreList, List.mem_map] at hymem
  obtain ⟨e', he', hy⟩ := hymem
  have hle1 : y.2 ≤ 1 := by
    rw [← hy]
    exact entryScore_le_one _ _
  have hge1 : 1 ≤ y.2 := by
    have h1mem : ((e.id, (1 : ℝ))) ∈ y :: ys := by
      rw [← hyys]
      exact mem_sortScored.mpr hmem1
    rcases List.mem_cons.mp h1mem with hcase | hcase
    · rw [← hcase]
    · exact hrest _ hcase
  have hy2 : y.2 = 1 := le_antisymm hle1 hge1
  have hscoreE : entryScore (pyStrip q) e' = 1 := by
    have hcomp : y.2 = entryScore (pyStrip q) e' := by rw [← hy]
    rw [← hcomp, hy2]
  have hid : e'.id = e.id := huniq e' he' hscoreE
  have hyval : y = ((e.id, (1 : ℝ))) := by
    rw [← hy, hid, hscoreE]
  rw [hyys, hyval]
  rfl

/-- C6, witness: a one-entry corpus whose text equals the query. -/
theorem c6_witness :
    entryScore (pyStrip ['a']) ⟨['p'], ['a']⟩ = 1 ∧
    (search ['a'] [⟨['p'], ['a']⟩] 10).head? = some (['p'], 1) :=
  c6_theorem ['a'] [⟨['p'], ['a']⟩] 10 ⟨['p'], ['a']⟩ (by decide) (by decide)
    (List.mem_singleton.mpr rfl) (by decide)
    (by
      intro e' he' _
      rw [List.mem_singleton] at he'
      rw [he'])

/-- C7: every score the handler assigns — each element of the scored list —
lies in `[0, 1]`: non-negative because all vector components are
non-negative, at most 1 because both vectors are unit vectors. -/
theorem c7_theorem : ∀ (q : List Char) (corpus : List Entry) (x : List Char × ℝ),
    x ∈ scoreList q corpus → 0 ≤ x.2 ∧ x.2 ≤ 1 := by
  intro q corpus x hx
  simp only [scoreList, List.mem_map] at hx
  obtain ⟨e, he, rfl⟩ := hx
  exact ⟨entryScore_nonneg q e, entryScore_le_one q e⟩

/-- C7, witness: the bound at a concrete query and entry. -/
theorem c7_witness :
    0 ≤ entryScore ['a'] ⟨['p'], ['b']⟩ ∧ entryScore ['a'] ⟨['p'], ['b']⟩ ≤ 1 :=
  c7_theorem ['a'] [⟨['p'], ['b']⟩] (['p'], entryScore ['a'] ⟨['p'], ['b']⟩)
    (by simp [scoreList])

end App
